import Mathlib

/-!
Shallow embedding of the infrared_transfer repository (src/src/camera_analyzer.py and
src/src/style_applicator.py) and proofs about its specification claims.

Images are modelled as single-channel rasters with rational pixel values (exact
arithmetic standing in for the floating-point arrays of the source; the spec states
all numeric equalities up to floating-point tolerance, and the rational model
realises them exactly).  The pixel map is a total function on natural indices; only
indices below the stored height and width are meaningful.
-/

namespace IRT

/-- A single-channel raster: height, width and a pixel map.  Models the numpy
float arrays flowing through the two pipeline stages. -/
structure Img where
  height : ℕ
  width : ℕ
  pix : ℕ → ℕ → ℚ

/-- The stylized output raster of apply_style: unsigned 8-bit samples, modelled as
natural numbers (the range bound 0..255 is proved, not built in). -/
structure Img8 where
  height : ℕ
  width : ℕ
  pix : ℕ → ℕ → ℕ

/-- The all-zero accumulator np.zeros of camera_analyzer.py line 52. -/
def zeroImg (h w : ℕ) : Img := ⟨h, w, fun _ _ => 0⟩

/-- Pointwise image addition: the accumulator update of camera_analyzer.py line 69. -/
def addImg (a b : Img) : Img := ⟨a.height, a.width, fun i j => a.pix i j + b.pix i j⟩

/-- OpenCV BORDER_REFLECT_101 index folding (the default border of GaussianBlur):
index p is reflected without repeating the edge pixel.  The reflection is periodic
with period 2n-2, which this closed form uses. -/
def reflect101 (n : ℕ) (p : ℤ) : ℕ :=
  if n ≤ 1 then 0
  else
    let m := (p % (2 * (n : ℤ) - 2)).toNat
    if m < n then m else 2 * n - 2 - m

/-- The smoothing response at one pixel: the doubly weighted sum of
reflected-border samples under the separable kernel. -/
def blurAt (kern : List ℚ) (a : Img) (i j : ℕ) : ℚ :=
  ∑ u ∈ Finset.range kern.length, ∑ t ∈ Finset.range kern.length,
    kern.getD u 0 * kern.getD t 0 *
      a.pix (reflect101 a.height ((i : ℤ) + (u : ℤ) - ((kern.length / 2 : ℕ) : ℤ)))
            (reflect101 a.width ((j : ℤ) + (t : ℤ) - ((kern.length / 2 : ℕ) : ℤ)))

/-- Separable symmetric smoothing with a 1-D kernel, as cv2.GaussianBlur applies it.
The kernel taps are given as an explicit list of rational weights. -/
def sepBlur (kern : List ℚ) (a : Img) : Img :=
  ⟨a.height, a.width, fun i j => blurAt kern a i j⟩

/-- The 1-D Gaussian kernel OpenCV uses for ksize 3 with the sigma-0 auto
convention: cv2.getGaussianKernel returns the fixed small kernel (1/4, 1/2, 1/4). -/
def kernel3 : List ℚ := [1/4, 1/2, 1/4]

/-- Length of the overlap of the source span of destination cell i with source
cell r, for area-weighted resampling on one axis. -/
def overlap (src dst : ℕ) (i r : ℕ) : ℚ :=
  max 0 (min (((i : ℚ) + 1) * src / dst) ((r : ℚ) + 1) - max ((i : ℚ) * src / dst) (r : ℚ))

/-- cv2.resize with INTER_AREA (camera_analyzer.py line 66): each destination pixel
is the area-weighted average of the source pixels its footprint covers. -/
def resizeArea (dstW dstH : ℕ) (a : Img) : Img :=
  ⟨dstH, dstW, fun i j =>
    ((dstH : ℚ) * (dstW : ℚ)) / ((a.height : ℚ) * (a.width : ℚ)) *
      ∑ r ∈ Finset.range a.height, ∑ c ∈ Finset.range a.width,
        overlap a.height dstH i r * overlap a.width dstW j c * a.pix r c⟩

/-- The bicubic interpolation kernel with a = -3/4, the coefficient OpenCV uses
for INTER_CUBIC. -/
def cubicW (x : ℚ) : ℚ :=
  if |x| ≤ 1 then (5/4) * |x| ^ 3 - (9/4) * |x| ^ 2 + 1
  else if |x| < 2 then (-3/4) * |x| ^ 3 + (15/4) * |x| ^ 2 - 6 * |x| + 3
  else 0

/-- Clamp a source index to the valid range, as OpenCV resize replicates the border
for out-of-range interpolation taps. -/
def clampIdx (n : ℕ) (p : ℤ) : ℕ := min p.toNat (n - 1)

/-- The bicubic interpolation response at source coordinates (fy, fx): the 4x4
weighted sum of border-clamped source samples. -/
def cubicAt (a : Img) (fy fx : ℚ) : ℚ :=
  ∑ u ∈ Finset.range 4, ∑ t ∈ Finset.range 4,
    cubicW (fy - ((⌊fy⌋ : ℚ) + (u : ℚ) - 1)) * cubicW (fx - ((⌊fx⌋ : ℚ) + (t : ℚ) - 1)) *
      a.pix (clampIdx a.height (⌊fy⌋ + (u : ℤ) - 1)) (clampIdx a.width (⌊fx⌋ + (t : ℤ) - 1))

/-- cv2.resize with INTER_CUBIC (style_applicator.py lines 65-66): destination
pixel (i, j) maps to source coordinates via the half-pixel-centre convention and
takes the bicubic weighted sum there. -/
def resizeCubic (dstW dstH : ℕ) (a : Img) : Img :=
  ⟨dstH, dstW, fun i j =>
    cubicAt a ((((i : ℚ) + 1/2) * (a.height : ℚ) / (dstH : ℚ)) - 1/2)
              ((((j : ℚ) + 1/2) * (a.width : ℚ) / (dstW : ℚ)) - 1/2)⟩

/-- All pixel values of a raster, row-major. -/
def pixList (a : Img) : List ℚ :=
  (List.range a.height).flatMap (fun i => (List.range a.width).map (a.pix i))

/-- Maximum of a list of rationals (0 on the empty list; numpy max is only ever
taken on nonempty arrays in the source). -/
def qmax : List ℚ → ℚ
  | [] => 0
  | x :: xs => xs.foldl max x

/-- The numpy array maximum, as vignette_resized.max() on line 71 computes it. -/
def maxPix (a : Img) : ℚ := qmax (pixList a)

/-- style_applicator.py line 71: divide the resampled vignetting field by its own
maximum, with no guard on the divisor. -/
def normalizeVig (a : Img) : Img :=
  ⟨a.height, a.width, fun i j => a.pix i j / maxPix a⟩

/-- np.clip to the interval 0..255 followed by the uint8 cast of line 85; after
clipping, the cast truncates to the integer part. -/
def clip8 (x : ℚ) : ℕ := (⌊min (max x 0) 255⌋).toNat

/-- A candidate file standing in an input directory: its filename extension (as
os.path.splitext returns it) and the decoded grayscale image, or none when
cv2.imread fails to decode it. -/
structure FileEntry where
  ext : String
  img : Option Img

/-- camera_analyzer.py line 7: the fixed allow-list of supported extensions. -/
def SUPPORTED_EXTENSIONS : List String := [".jpg", ".jpeg", ".png", ".bmp", ".tiff", ".tif"]

/-- ASCII lowercasing of one character, as str.lower acts on the extension
strings in play (all extensions are ASCII). -/
def charLower (c : Char) : Char :=
  if 65 ≤ c.toNat ∧ c.toNat ≤ 90 then Char.ofNat (c.toNat + 32) else c

/-- str.lower on a filename extension. -/
def lowerStr (s : String) : String := ⟨s.data.map charLower⟩

/-- The extension filter of camera_analyzer.py line 38: lowercase extension is a
member of the allow-list. -/
def supportedFile (f : FileEntry) : Bool :=
  SUPPORTED_EXTENSIONS.contains (lowerStr f.ext)

/-- The extension-filtered candidate list of camera_analyzer.py lines 35-39. -/
def image_paths (files : List FileEntry) : List FileEntry :=
  files.filter (fun f => supportedFile f)

/-- The successfully decoded images among the supported candidates, in order:
the images that survive the skip-on-failure loop of lines 56-74. -/
def goodImages (files : List FileEntry) : List Img :=
  (image_paths files).filterMap (fun f => f.img)

/-- The accumulation loop: resize each processed image to the processing
resolution and add it into the accumulator (lines 66-70). -/
def accumulate (res : ℕ × ℕ) (gs : List Img) : Img :=
  gs.foldl (fun acc g => addImg acc (resizeArea res.1 res.2 g)) (zeroImg res.2 res.1)

/-- camera_analyzer.py lines 34-82: listing, filtering, per-file decode with
skip-on-failure, INTER_AREA resize to the processing resolution, accumulation,
and division by the number of successfully processed images.  The directory is
an Option: none models the FileNotFoundError branch of lines 40-42.  The
resolution pair is (width, height) as in the source; the accumulator raster is
height res.2 by width res.1 (line 52).  Returns the average image, or none on
any of the three failure branches (lines 42, 46, 78). -/
def average_image (dir : Option (List FileEntry)) (res : ℕ × ℕ) : Option Img :=
  match dir with
  | none => none
  | some files =>
    if (image_paths files).isEmpty then none
    else if (goodImages files).length = 0 then none
    else some ⟨res.2, res.1, fun i j =>
      (accumulate res (goodImages files)).pix i j / ((goodImages files).length : ℚ)⟩

/-- camera_analyzer.py lines 9-93: extract_fingerprint.  On success the result is
the pair (vignetting_map, noise_map) where vignetting_map is the Gaussian blur of
the average image (line 87) and noise_map is the pointwise difference
average_image - vignetting_map (line 90).  The blur kernel is passed as its list
of 1-D tap weights. -/
def extract_fingerprint (dir : Option (List FileEntry)) (res : ℕ × ℕ) (kern : List ℚ) :
    Option (Img × Img) :=
  (average_image dir res).map (fun a =>
    let vignetting_map := sepBlur kern a
    (vignetting_map,
     ⟨a.height, a.width, fun i j => a.pix i j - vignetting_map.pix i j⟩))

/-- The failure signal of the application stage: in the source, cv2.resize raises
when a field (or the target size taken from the clean image) is zero-sized, and
that error propagates out of apply_style. -/
inductive ApplicationFailure where
  | invalidFingerprint
deriving DecidableEq

/-- style_applicator.py lines 37-87: apply_style on a single-channel clean image
(the BGR-to-gray branch of lines 56-58 is the external colour collaborator and
is modelled as already applied).  Both fields are resampled with INTER_CUBIC to
the clean image size, the vignetting field is normalized by its own maximum, the
clean image is multiplied by it, the alpha-scaled noise is added, and the result
is clipped to 0..255 and cast to uint8.  A zero-sized clean image or field makes
cv2.resize raise; that is the error branch. -/
def apply_style (clean_image vignetting_map noise_map : Img) (noise_alpha : ℚ) :
    Except ApplicationFailure Img8 :=
  if clean_image.height = 0 ∨ clean_image.width = 0 ∨
     vignetting_map.height = 0 ∨ vignetting_map.width = 0 ∨
     noise_map.height = 0 ∨ noise_map.width = 0 then
    Except.error ApplicationFailure.invalidFingerprint
  else
    let vr := resizeCubic clean_image.width clean_image.height vignetting_map
    let nr := resizeCubic clean_image.width clean_image.height noise_map
    Except.ok ⟨clean_image.height, clean_image.width, fun i j =>
      clip8 (clean_image.pix i j * (normalizeVig vr).pix i j + nr.pix i j * noise_alpha)⟩

/-- Projection of a stylized-image result pixel; 0 on the error branch. -/
def pixOf (r : Except ApplicationFailure Img8) (i j : ℕ) : ℕ :=
  match r with
  | Except.ok o => o.pix i j
  | Except.error _ => 0

/-- Projection of a stylized-image result to its dimensions; none on error. -/
def dimsOf (r : Except ApplicationFailure Img8) : Option (ℕ × ℕ) :=
  match r with
  | Except.ok o => some (o.height, o.width)
  | Except.error _ => none

/-- Modelled from the spec words of the noise-disable property (section 8): the
application computation with the additive noise step of algorithm step 5 omitted
entirely, so the output is the clamped product of the clean luminance image and
the max-normalized resampled vignetting field.  Used only as the comparison
point for apply_style at noise_alpha 0. -/
def apply_vignette_only (clean_image vignetting_map noise_map : Img) :
    Except ApplicationFailure Img8 :=
  if clean_image.height = 0 ∨ clean_image.width = 0 ∨
     vignetting_map.height = 0 ∨ vignetting_map.width = 0 ∨
     noise_map.height = 0 ∨ noise_map.width = 0 then
    Except.error ApplicationFailure.invalidFingerprint
  else
    let vr := resizeCubic clean_image.width clean_image.height vignetting_map
    Except.ok ⟨clean_image.height, clean_image.width, fun i j =>
      clip8 (clean_image.pix i j * (normalizeVig vr).pix i j)⟩

/- Concrete inputs used by individual witness and counterexample theorems. -/

/-- A 1x1 clean image of value 100. -/
def cleanOne : Img := ⟨1, 1, fun _ _ => 100⟩

/-- A 1x1 vignetting field of value 2 (nonempty, mismatched with noiseTwo). -/
def vigOne : Img := ⟨1, 1, fun _ _ => 2⟩

/-- A 2x2 all-zero noise field (nonempty, mismatched with vigOne). -/
def noiseTwo : Img := ⟨2, 2, fun _ _ => 0⟩

/-- A 1x2 field with values -2 and -1: its maximum is negative. -/
def negField : Img := ⟨1, 2, fun _ j => if j = 0 then -2 else -1⟩

/-- A 2x2 field with values 1..4. -/
def posField : Img :=
  ⟨2, 2, fun i j => if i = 0 then (if j = 0 then 1 else 2) else (if j = 0 then 3 else 4)⟩

/-- A 3x4 clean image of value 10. -/
def cleanSmall : Img := ⟨3, 4, fun _ _ => 10⟩

/-- The 4x4 solid-gray value-128 training image of the end-to-end example. -/
def gray128 : Img := ⟨4, 4, fun _ _ => 128⟩

/-- Ten identical solid-gray 128 png candidates. -/
def grayBatch : List FileEntry := List.replicate 10 ⟨".png", some gray128⟩

/-- The distinct 4x4 solid-gray value-200 clean image of the end-to-end example. -/
def gray200 : Img := ⟨4, 4, fun _ _ => 200⟩

/-- Default raster for Option projections. -/
def dummyImg : Img := zeroImg 0 0

/-- The vignetting field the end-to-end example extracts. -/
def fpV : Img := ((extract_fingerprint (some grayBatch) (4, 4) kernel3).getD (dummyImg, dummyImg)).1

/-- The noise field the end-to-end example extracts. -/
def fpN : Img := ((extract_fingerprint (some grayBatch) (4, 4) kernel3).getD (dummyImg, dummyImg)).2

/-- The average image of the end-to-end example, written out as average_image
produces it. -/
def A9 : Img :=
  ⟨4, 4, fun i j =>
    (accumulate (4, 4) (goodImages grayBatch)).pix i j / ((goodImages grayBatch).length : ℚ)⟩

/-- A batch with one undecodable supported candidate and one good one. -/
def mixedBatch : List FileEntry := [⟨".png", none⟩, ⟨".png", some gray128⟩]

/-- A batch whose only entries are unsupported extensions. -/
def unsupportedBatch : List FileEntry := [⟨".txt", some gray128⟩, ⟨".exr", some gray128⟩]

/-- A batch whose supported entries all fail to decode. -/
def badBatch : List FileEntry := [⟨".png", none⟩, ⟨".jpg", none⟩, ⟨".txt", some gray128⟩]

/-- Keep a candidate file unless it is a supported file that fails to decode:
removing exactly the entries the extraction loop skips with a warning. -/
def keepFile (f : FileEntry) : Bool := !supportedFile f || f.img.isSome

/- Helper lemmas about the list maximum. -/

theorem le_foldl_max (l : List ℚ) (x : ℚ) : x ≤ l.foldl max x := by
  induction l generalizing x with
  | nil => exact le_refl x
  | cons b t ih => exact le_trans (le_max_left x b) (ih (max x b))

theorem mem_le_foldl_max (l : List ℚ) (x y : ℚ) (hy : y ∈ l) : y ≤ l.foldl max x := by
  induction l generalizing x with
  | nil => cases hy
  | cons b t ih =>
    rcases List.mem_cons.mp hy with h | h
    · subst h
      exact le_trans (le_max_right x y) (le_foldl_max t (max x y))
    · exact ih (max x b) h

theorem foldl_max_mem (l : List ℚ) (x : ℚ) : l.foldl max x = x ∨ l.foldl max x ∈ l := by
  induction l generalizing x with
  | nil => exact Or.inl rfl
  | cons b t ih =>
    rcases ih (max x b) with h | h
    · rcases max_cases x b with ⟨he, _⟩ | ⟨he, _⟩
      · exact Or.inl (h.trans he)
      · exact Or.inr (List.mem_cons.mpr (Or.inl (h.trans he)))
    · exact Or.inr (List.mem_cons.mpr (Or.inr h))

theorem qmax_mem (l : List ℚ) (hl : l ≠ []) : qmax l ∈ l := by
  cases l with
  | nil => exact absurd rfl hl
  | cons x t =>
    rcases foldl_max_mem t x with h | h
    · exact List.mem_cons.mpr (Or.inl h)
    · exact List.mem_cons.mpr (Or.inr h)

theorem le_qmax (l : List ℚ) (y : ℚ) (hy : y ∈ l) : y ≤ qmax l := by
  cases l with
  | nil => cases hy
  | cons x t =>
    rcases List.mem_cons.mp hy with h | h
    · exact h ▸ le_foldl_max t x
    · exact mem_le_foldl_max t x y h

theorem qmax_eq_of (l : List ℚ) (c : ℚ) (hc : c ∈ l) (hle : ∀ y ∈ l, y ≤ c) :
    qmax l = c := by
  have h1 : qmax l ≤ c := hle _ (qmax_mem l (List.ne_nil_of_mem hc))
  have h2 : c ≤ qmax l := le_qmax l c hc
  exact le_antisymm h1 h2

theorem mem_pixList_iff (a : Img) (x : ℚ) :
    x ∈ pixList a ↔ ∃ i, i < a.height ∧ ∃ j, j < a.width ∧ a.pix i j = x := by
  simp only [pixList, List.mem_flatMap, List.mem_map, List.mem_range]

theorem pix_mem_pixList (a : Img) (i j : ℕ) (hi : i < a.height) (hj : j < a.width) :
    a.pix i j ∈ pixList a :=
  (mem_pixList_iff a _).mpr ⟨i, hi, j, hj, rfl⟩

theorem pixList_ne_nil (a : Img) (hh : 0 < a.height) (hw : 0 < a.width) :
    pixList a ≠ [] :=
  List.ne_nil_of_mem (pix_mem_pixList a 0 0 hh hw)

/- Border reflection stays in range. -/

theorem reflect101_lt (n : ℕ) (hn : 0 < n) (p : ℤ) : reflect101 n p < n := by
  unfold reflect101
  by_cases h1 : n ≤ 1
  · simp [h1]; omega
  · simp only [h1, if_false]
    have h2 : (0 : ℤ) < 2 * (n : ℤ) - 2 := by omega
    have hm : (p % (2 * (n : ℤ) - 2)) < 2 * (n : ℤ) - 2 := Int.emod_lt_of_pos p h2
    have hm0 : 0 ≤ p % (2 * (n : ℤ) - 2) := Int.emod_nonneg p (by omega)
    have hmn : (p % (2 * (n : ℤ) - 2)).toNat < 2 * n - 2 := by omega
    by_cases h3 : (p % (2 * (n : ℤ) - 2)).toNat < n
    · simp only [h3, if_true]
    · simp only [h3, if_false]
      omega

/- The clipped uint8 cast is bounded by 255. -/

theorem clip8_le (x : ℚ) : clip8 x ≤ 255 := by
  unfold clip8
  have h1 : min (max x 0) 255 ≤ (255 : ℚ) := min_le_right _ _
  have h2 : ⌊min (max x 0) 255⌋ ≤ (255 : ℤ) := by
    have := Int.floor_le_floor h1
    simpa using this
  omega

/-- C1: for every input batch, processing resolution and blur kernel, whenever
extraction succeeds the returned vignetting field plus the returned noise field
equals the average image at every pixel: extract_fingerprint computes the noise
map as average_image minus vignetting_map, so their sum reconstructs the average
image exactly. -/
theorem C1_decomposition_lossless (dir : Option (List FileEntry)) (res : ℕ × ℕ)
    (kern : List ℚ) (i j : ℕ) :
    (extract_fingerprint dir res kern).map (fun p => p.1.pix i j + p.2.pix i j) =
      (average_image dir res).map (fun a => a.pix i j) := by
  cases h : average_image dir res with
  | none => simp [extract_fingerprint, h]
  | some a => simp [extract_fingerprint, h]

/-- C4: for every clean image, fingerprint fields and noise alpha, every sample of
the image apply_style returns lies in the unsigned 8-bit display range: the result
pixels are naturals and never exceed 255, because the final values are clipped to
0..255 before the uint8 cast. -/
theorem C4_output_clamped (c v n : Img) (a : ℚ) (i j : ℕ) :
    pixOf (apply_style c v n a) i j ≤ 255 := by
  unfold apply_style
  split
  · simp [pixOf]
  · simpa [pixOf] using clip8_le _

/-- C5: for every clean image and fingerprint, apply_style with noise alpha 0
returns exactly the same output as the computation with the additive noise step
omitted: the clamped product of the clean luminance image and the normalized
vignetting field, with zero contribution from the noise field. -/
theorem C5_noise_disable (c v n : Img) :
    apply_style c v n 0 = apply_vignette_only c v n := by
  unfold apply_style apply_vignette_only
  split
  · rfl
  · refine congrArg Except.ok (congrArg (Img8.mk c.height c.width) ?_)
    funext i j
    rw [mul_zero, add_zero]

/-- C3 counterexample: the claim says mismatched (differently sized, nonempty)
vignetting and noise fields make apply_style signal an application failure, but
on a 1x1 vignetting field paired with a 2x2 noise field apply_style succeeds and
returns a stylized image: both fields are resampled independently, so a size
mismatch between them is never detected. -/
theorem C3_counterexample :
    dimsOf (apply_style cleanOne vigOne noiseTwo (1/2)) = some (1, 1) := rfl

/-- C3 amended: apply_style fails exactly when the clean image, the vignetting
field or the noise field is zero-sized (the resize of an empty array raises, and
that is the only failure path); mismatched but nonempty fields are resampled
independently and succeed, and for nonempty inputs there is no other failure
mode. -/
theorem C3_invalid_fingerprint (c v n : Img) (a : ℚ) :
    (dimsOf (apply_style c v n a)).isSome = true ↔
      0 < c.height ∧ 0 < c.width ∧ 0 < v.height ∧ 0 < v.width ∧
        0 < n.height ∧ 0 < n.width := by
  unfold apply_style
  split
  next h =>
    simp only [dimsOf, Option.isSome_none]
    constructor
    · intro hh; cases hh
    · intro hh; omega
  next h =>
    simp only [dimsOf, Option.isSome_some, true_iff]
    omega

/-- C10: the division of the resampled vignetting field by its own maximum on
line 71 is unguarded, and under the precondition that the maximum is strictly
positive the divisor is nonzero and the normalization is a genuine division:
multiplying each normalized value back by the maximum recovers the field, so the
division-by-zero case is unreachable under that precondition. -/
theorem C10_unguarded_division_safe (v : Img) (h : 0 < maxPix v) :
    maxPix v ≠ 0 ∧ ∀ i j, (normalizeVig v).pix i j * maxPix v = v.pix i j := by
  refine ⟨ne_of_gt h, fun i j => ?_⟩
  show v.pix i j / maxPix v * maxPix v = v.pix i j
  exact div_mul_cancel₀ _ (ne_of_gt h)

/-- Witness for C10 at a concrete positive-maximum field. -/
theorem C10_witness :
    0 < maxPix posField ∧ maxPix posField ≠ 0 :=
  ⟨by decide, (C10_unguarded_division_safe posField (by decide)).1⟩

theorem pixList_normalize (v : Img) :
    pixList (normalizeVig v) = (pixList v).map (fun x => x / maxPix v) := by
  simp only [pixList, normalizeVig, List.map_flatMap, List.map_map]
  rfl

/-- C7 counterexample: the claim asserts the normalization bound for every
resampled vignetting field, but on the field with values -2 and -1 (its own
maximum is the negative value -1, reachable since the field is read back from an
arbitrary float raster and cubic resampling can undershoot), dividing by the
maximum yields a value 2 that exceeds 1, and the maximum of the normalized field
is 2, not 1. -/
theorem C7_counterexample :
    (normalizeVig (resizeCubic 2 1 negField)).pix 0 0 = 2 ∧
      maxPix (normalizeVig (resizeCubic 2 1 negField)) ≠ 1 := by
  have h00 : (resizeCubic 2 1 negField).pix 0 0 = -2 := by
    norm_num [resizeCubic, cubicAt, cubicW, clampIdx, negField, Finset.sum_range_succ]
  have h01 : (resizeCubic 2 1 negField).pix 0 1 = -1 := by
    norm_num [resizeCubic, cubicAt, cubicW, clampIdx, negField, Finset.sum_range_succ]
  have hh : (resizeCubic 2 1 negField).height = 1 := rfl
  have hw : (resizeCubic 2 1 negField).width = 2 := rfl
  have hlist : pixList (resizeCubic 2 1 negField) =
      [(resizeCubic 2 1 negField).pix 0 0, (resizeCubic 2 1 negField).pix 0 1] := by
    simp [pixList, hh, hw, List.range_succ]
  have hmax : maxPix (resizeCubic 2 1 negField) = -1 := by
    unfold maxPix
    rw [hlist, h00, h01]
    norm_num [qmax]
  have hlist2 : pixList (normalizeVig (resizeCubic 2 1 negField)) =
      [(resizeCubic 2 1 negField).pix 0 0 / maxPix (resizeCubic 2 1 negField),
       (resizeCubic 2 1 negField).pix 0 1 / maxPix (resizeCubic 2 1 negField)] := by
    simp [pixList, normalizeVig, hh, hw, List.range_succ]
  constructor
  · show (resizeCubic 2 1 negField).pix 0 0 / maxPix (resizeCubic 2 1 negField) = 2
    rw [h00, hmax]
    norm_num
  · unfold maxPix
    rw [hlist2, h00, h01, hmax]
    norm_num [qmax]

/-- C7 amended: for every nonempty resampled vignetting field whose maximum is
strictly positive, after apply_style divides the field by its own maximum the
maximum of the normalized field equals 1 exactly and no value of the normalized
field exceeds 1; fields with non-positive maximum (all-zero or all-negative
data) are outside this guarantee. -/
theorem C7_normalization_bound (v : Img) (hh : 0 < v.height) (hw : 0 < v.width)
    (hm : 0 < maxPix v) :
    maxPix (normalizeVig v) = 1 ∧
      ∀ i j, i < v.height → j < v.width → (normalizeVig v).pix i j ≤ 1 := by
  have hm0 : maxPix v ≠ 0 := ne_of_gt hm
  constructor
  · unfold maxPix
    rw [pixList_normalize]
    apply qmax_eq_of
    · exact List.mem_map.mpr ⟨maxPix v, qmax_mem _ (pixList_ne_nil v hh hw), div_self hm0⟩
    · intro y hy
      rcases List.mem_map.mp hy with ⟨x, hx, rfl⟩
      exact (div_le_one hm).mpr (le_qmax _ _ hx)
  · intro i j hi hj
    show v.pix i j / maxPix v ≤ 1
    exact (div_le_one hm).mpr (le_qmax _ _ (pix_mem_pixList v i j hi hj))

/-- Witness for C7 at a concrete positive-maximum field. -/
theorem C7_witness :
    0 < maxPix posField ∧ maxPix (normalizeVig posField) = 1 :=
  ⟨by decide, (C7_normalization_bound posField (by decide) (by decide) (by decide)).1⟩

/-- C2: extraction produces no fingerprint whenever zero images are successfully
processed: the directory is missing (the FileNotFoundError branch), no supported
files are present (empty filtered listing), or every supported candidate fails
to decode (zero processed count); in each case extract_fingerprint returns the
failure value none. -/
theorem C2_no_usable_images (files : List FileEntry) (res : ℕ × ℕ) (kern : List ℚ) :
    extract_fingerprint none res kern = none ∧
      ((∀ f ∈ files, supportedFile f = false) →
        extract_fingerprint (some files) res kern = none) ∧
      ((∀ f ∈ files, supportedFile f = true → f.img.isNone = true) →
        extract_fingerprint (some files) res kern = none) := by
  refine ⟨rfl, fun h => ?_, fun h => ?_⟩
  · have hfil : image_paths files = [] := by
      rw [image_paths, List.filter_eq_nil_iff]
      intro a ha
      simp [h a ha]
    simp [extract_fingerprint, average_image, hfil]
  · have hgoods : goodImages files = [] := by
      rw [goodImages, List.filterMap_eq_nil_iff]
      intro a ha
      have hmem := List.mem_filter.mp ha
      exact Option.isNone_iff_eq_none.mp (h a hmem.1 hmem.2)
    cases hfil : (image_paths files).isEmpty with
    | true => simp [extract_fingerprint, average_image, hfil]
    | false => simp [extract_fingerprint, average_image, hfil, hgoods]

/-- Witness for C2 at three concrete inputs: a missing directory, a directory
with no supported files, and a directory whose supported files all fail to
decode. -/
theorem C2_witness :
    extract_fingerprint none (4, 4) kernel3 = none ∧
      extract_fingerprint (some unsupportedBatch) (4, 4) kernel3 = none ∧
      extract_fingerprint (some badBatch) (4, 4) kernel3 = none :=
  ⟨(C2_no_usable_images [] (4, 4) kernel3).1,
   (C2_no_usable_images unsupportedBatch (4, 4) kernel3).2.1 (by decide),
   (C2_no_usable_images badBatch (4, 4) kernel3).2.2 (by decide)⟩

/-- C6: for every nonempty clean image and nonempty fingerprint fields (computed
at any resolution), apply_style resamples both fields to the clean image pixel
dimensions without error and the returned stylized image has exactly the clean
image shape. -/
theorem C6_resolution_invariance (c v n : Img) (a : ℚ)
    (hc1 : 0 < c.height) (hc2 : 0 < c.width) (hv1 : 0 < v.height) (hv2 : 0 < v.width)
    (hn1 : 0 < n.height) (hn2 : 0 < n.width) :
    dimsOf (apply_style c v n a) = some (c.height, c.width) ∧
      (resizeCubic c.width c.height v).height = c.height ∧
      (resizeCubic c.width c.height v).width = c.width ∧
      (resizeCubic c.width c.height n).height = c.height ∧
      (resizeCubic c.width c.height n).width = c.width := by
  refine ⟨?_, rfl, rfl, rfl, rfl⟩
  unfold apply_style
  rw [if_neg (by omega)]
  rfl

/-- Witness for C6: a 2x2 fingerprint applied to a 3x4 clean image yields a 3x4
output. -/
theorem C6_witness :
    0 < cleanSmall.height ∧ dimsOf (apply_style cleanSmall posField noiseTwo 1) = some (3, 4) :=
  ⟨by decide,
   (C6_resolution_invariance cleanSmall posField noiseTwo 1 (by decide) (by decide)
      (by decide) (by decide) (by decide) (by decide)).1⟩

theorem goodImages_cons (f : FileEntry) (t : List FileEntry) :
    goodImages (f :: t) =
      if supportedFile f then
        (match f.img with
         | some g => g :: goodImages t
         | none => goodImages t)
      else goodImages t := by
  unfold goodImages image_paths
  cases hs : supportedFile f with
  | false => simp [List.filter_cons, hs]
  | true =>
    cases himg : f.img with
    | none => simp [List.filter_cons, hs, List.filterMap_cons, himg]
    | some g => simp [List.filter_cons, hs, List.filterMap_cons, himg]

theorem goodImages_keepFile (files : List FileEntry) :
    goodImages (files.filter keepFile) = goodImages files := by
  induction files with
  | nil => rfl
  | cons f t ih =>
    by_cases hs : supportedFile f = true
    · cases himg : f.img with
      | none =>
        have hk : ¬(keepFile f = true) := by simp [keepFile, hs, himg]
        rw [List.filter_cons_of_neg hk, ih, goodImages_cons, hs, himg]
        simp
      | some g =>
        have hk : keepFile f = true := by simp [keepFile, himg]
        rw [List.filter_cons_of_pos hk, goodImages_cons, goodImages_cons, hs, himg, ih]
    · have hs' : supportedFile f = false := by
        cases hsv : supportedFile f
        · rfl
        · exact absurd hsv hs
      have hk : keepFile f = true := by simp [keepFile, hs']
      rw [List.filter_cons_of_pos hk, goodImages_cons, goodImages_cons, hs', ih]

theorem average_image_some (files : List FileEntry) (res : ℕ × ℕ) :
    average_image (some files) res =
      if (image_paths files).isEmpty then none
      else if (goodImages files).length = 0 then none
      else some (⟨res.2, res.1, fun i j =>
        (accumulate res (goodImages files)).pix i j / ((goodImages files).length : ℚ)⟩ : Img) :=
  rfl

theorem extract_fingerprint_def (dir : Option (List FileEntry)) (res : ℕ × ℕ) (kern : List ℚ) :
    extract_fingerprint dir res kern =
      (average_image dir res).map (fun a =>
        (sepBlur kern a,
         (⟨a.height, a.width, fun i j => a.pix i j - (sepBlur kern a).pix i j⟩ : Img))) :=
  rfl

/-- C8: when at least one supported candidate decodes and at least one supported
candidate fails to decode, extraction still succeeds, and its result is exactly
the result of extracting from the batch with the failing candidates removed: the
skipped files contribute nothing, and the average divides by the count of
successfully processed images, not the candidate count. -/
theorem C8_partial_failure_tolerated (files : List FileEntry) (res : ℕ × ℕ) (kern : List ℚ)
    (hgood : ∃ f ∈ files, supportedFile f = true ∧ f.img.isSome = true)
    (_hbad : ∃ f ∈ files, supportedFile f = true ∧ f.img.isNone = true) :
    (extract_fingerprint (some files) res kern).isSome = true ∧
      extract_fingerprint (some files) res kern =
        extract_fingerprint (some (files.filter keepFile)) res kern := by
  obtain ⟨fg, hfg, hsg, hg⟩ := hgood
  obtain ⟨g, hg_eq⟩ := Option.isSome_iff_exists.mp hg
  have hfgP : fg ∈ image_paths files := List.mem_filter.mpr ⟨hfg, hsg⟩
  have hgmem : g ∈ goodImages files := List.mem_filterMap.mpr ⟨fg, hfgP, hg_eq⟩
  have hkeep : keepFile fg = true := by simp [keepFile, hg_eq]
  have hfgK : fg ∈ files.filter keepFile := List.mem_filter.mpr ⟨hfg, hkeep⟩
  have hfgP2 : fg ∈ image_paths (files.filter keepFile) := List.mem_filter.mpr ⟨hfgK, hsg⟩
  have hE1 : ¬((image_paths files).isEmpty = true) := by
    rw [List.isEmpty_iff]
    exact List.ne_nil_of_mem hfgP
  have hE2 : ¬((image_paths (files.filter keepFile)).isEmpty = true) := by
    rw [List.isEmpty_iff]
    exact List.ne_nil_of_mem hfgP2
  have hL1 : ¬((goodImages files).length = 0) := by
    intro h0
    rw [List.length_eq_zero] at h0
    rw [h0] at hgmem
    cases hgmem
  have hL2 : ¬((goodImages (files.filter keepFile)).length = 0) := by
    rw [goodImages_keepFile]
    exact hL1
  have havg : average_image (some files) res =
      average_image (some (files.filter keepFile)) res := by
    rw [average_image_some, average_image_some, if_neg hE1, if_neg hE2, if_neg hL1, if_neg hL2,
      goodImages_keepFile]
  constructor
  · have hsome : average_image (some files) res =
        some (⟨res.2, res.1, fun i j =>
          (accumulate res (goodImages files)).pix i j / ((goodImages files).length : ℚ)⟩ : Img) := by
      rw [average_image_some, if_neg hE1, if_neg hL1]
    rw [extract_fingerprint_def, hsome]
    rfl
  · rw [extract_fingerprint_def, extract_fingerprint_def, havg]

/-- Witness for C8: a batch with one undecodable supported file and one good one
still yields a fingerprint, equal to extracting from the good file alone. -/
theorem C8_witness :
    (∃ f ∈ mixedBatch, supportedFile f = true ∧ f.img.isSome = true) ∧
      (extract_fingerprint (some mixedBatch) (4, 4) kernel3).isSome = true :=
  ⟨by decide,
   (C8_partial_failure_tolerated mixedBatch (4, 4) kernel3 (by decide) (by decide)).1⟩

/- Lemmas about area resampling at the identity resolution. -/

theorem overlap_self (n : ℕ) (hn : 0 < n) (i r : ℕ) :
    overlap n n i r = if r = i then 1 else 0 := by
  unfold overlap
  have hn0 : (n : ℚ) ≠ 0 := Nat.cast_ne_zero.mpr hn.ne'
  have h1 : ((i : ℚ) + 1) * n / n = (i : ℚ) + 1 := by
    rw [mul_div_assoc, div_self hn0, mul_one]
  have h2 : (i : ℚ) * n / n = (i : ℚ) := by
    rw [mul_div_assoc, div_self hn0, mul_one]
  rw [h1, h2]
  by_cases hri : r = i
  · subst hri
    rw [if_pos rfl, min_self, max_self]
    norm_num
  · rw [if_neg hri]
    rcases Nat.lt_or_ge r i with h | h
    · have hc : (r : ℚ) + 1 ≤ (i : ℚ) := by exact_mod_cast h
      rw [min_eq_right (show (r : ℚ) + 1 ≤ (i : ℚ) + 1 by linarith),
        max_eq_left (show (r : ℚ) ≤ (i : ℚ) by linarith),
        max_eq_left (show (r : ℚ) + 1 - (i : ℚ) ≤ 0 by linarith)]
    · have h' : i < r := by omega
      have hc : (i : ℚ) + 1 ≤ (r : ℚ) := by exact_mod_cast h'
      rw [min_eq_left (show (i : ℚ) + 1 ≤ (r : ℚ) + 1 by linarith),
        max_eq_right (show (i : ℚ) ≤ (r : ℚ) by linarith),
        max_eq_left (show (i : ℚ) + 1 - (r : ℚ) ≤ 0 by linarith)]

theorem resizeArea_self (a : Img) (W H i j : ℕ) (hW : W = a.width) (hH : H = a.height)
    (hi : i < a.height) (hj : j < a.width) :
    (resizeArea W H a).pix i j = a.pix i j := by
  subst hW hH
  have h0 : 0 < a.height := by omega
  have w0 : 0 < a.width := by omega
  have hh0 : (a.height : ℚ) ≠ 0 := Nat.cast_ne_zero.mpr h0.ne'
  have hw0 : (a.width : ℚ) ≠ 0 := Nat.cast_ne_zero.mpr w0.ne'
  show ((a.height : ℚ) * (a.width : ℚ)) / ((a.height : ℚ) * (a.width : ℚ)) *
      ∑ r ∈ Finset.range a.height, ∑ c ∈ Finset.range a.width,
        overlap a.height a.height i r * overlap a.width a.width j c * a.pix r c = a.pix i j
  have hinner : ∀ r : ℕ,
      (∑ c ∈ Finset.range a.width,
        overlap a.height a.height i r * overlap a.width a.width j c * a.pix r c) =
      (if r = i then 1 else 0) *
        ∑ c ∈ Finset.range a.width, (if c = j then 1 else 0) * a.pix r c := by
    intro r
    rw [Finset.mul_sum]
    refine Finset.sum_congr rfl fun c hc => ?_
    rw [overlap_self a.height h0 i r, overlap_self a.width w0 j c, mul_assoc]
  have hsum : (∑ r ∈ Finset.range a.height, ∑ c ∈ Finset.range a.width,
      overlap a.height a.height i r * overlap a.width a.width j c * a.pix r c) = a.pix i j := by
    rw [Finset.sum_congr rfl fun r _ => hinner r]
    simp only [ite_mul, one_mul, zero_mul]
    rw [Finset.sum_ite_eq']
    simp only [Finset.mem_range, hi, if_true]
    rw [Finset.sum_ite_eq']
    simp only [Finset.mem_range, hj, if_true]
  rw [hsum, div_self (mul_ne_zero hh0 hw0), one_mul]

/- Accumulation over the processed-image list. -/

theorem foldl_addImg_pix (res : ℕ × ℕ) (gs : List Img) (z : Img) (i j : ℕ) :
    ((gs.foldl (fun acc g => addImg acc (resizeArea res.1 res.2 g)) z).pix i j) =
      z.pix i j + (gs.map (fun g => (resizeArea res.1 res.2 g).pix i j)).sum := by
  induction gs generalizing z with
  | nil => simp
  | cons g t ih =>
    rw [List.foldl_cons, ih, List.map_cons, List.sum_cons]
    show (addImg z (resizeArea res.1 res.2 g)).pix i j + _ = _
    rw [addImg]
    ring

theorem accumulate_pix (res : ℕ × ℕ) (gs : List Img) (i j : ℕ) :
    (accumulate res gs).pix i j =
      (gs.map (fun g => (resizeArea res.1 res.2 g).pix i j)).sum := by
  rw [accumulate, foldl_addImg_pix]
  show (0 : ℚ) + _ = _
  rw [zero_add]

theorem filter_replicate_pos {α : Type} (p : α → Bool) (a : α) (h : p a = true) (k : ℕ) :
    (List.replicate k a).filter p = List.replicate k a := by
  induction k with
  | zero => rfl
  | succ m ih =>
    rw [List.replicate_succ, List.filter_cons_of_pos h, ih, ← List.replicate_succ]

theorem filterMap_replicate_some {α β : Type} (f : α → Option β) (a : α) (b : β)
    (h : f a = some b) (k : ℕ) :
    (List.replicate k a).filterMap f = List.replicate k b := by
  induction k with
  | zero => rfl
  | succ m ih =>
    rw [List.replicate_succ, List.filterMap_cons, h, ih]
    rfl

/- The bicubic kernel: branch unfoldings and the partition-of-unity identity. -/

theorem cubicW_of_le (x : ℚ) (h0 : 0 ≤ x) (h1 : x ≤ 1) :
    cubicW x = (5/4) * x ^ 3 - (9/4) * x ^ 2 + 1 := by
  unfold cubicW
  rw [abs_of_nonneg h0, if_pos h1]

theorem cubicW_of_mid (x : ℚ) (h1 : 1 < x) (h2 : x < 2) :
    cubicW x = (-3/4) * x ^ 3 + (15/4) * x ^ 2 - 6 * x + 3 := by
  unfold cubicW
  rw [abs_of_nonneg (by linarith), if_neg (by linarith), if_pos h2]

theorem cubicW_of_ge (x : ℚ) (h : 2 ≤ x) : cubicW x = 0 := by
  unfold cubicW
  rw [abs_of_nonneg (by linarith), if_neg (by linarith), if_neg (by linarith)]

theorem cubicW_neg (x : ℚ) : cubicW (-x) = cubicW x := by
  unfold cubicW
  rw [abs_neg]

theorem sum_cubicW (fy : ℚ) :
    ∑ u ∈ Finset.range 4, cubicW (fy - ((⌊fy⌋ : ℚ) + (u : ℚ) - 1)) = 1 := by
  have hf0 : 0 ≤ fy - (⌊fy⌋ : ℚ) := sub_nonneg.mpr (Int.floor_le fy)
  have hf1 : fy - (⌊fy⌋ : ℚ) < 1 := by
    have := Int.lt_floor_add_one fy
    linarith
  rw [Finset.sum_range_succ, Finset.sum_range_succ, Finset.sum_range_succ,
    Finset.sum_range_one]
  have e0 : fy - ((⌊fy⌋ : ℚ) + ((0 : ℕ) : ℚ) - 1) = (fy - (⌊fy⌋ : ℚ)) + 1 := by
    push_cast
    ring
  have e1 : fy - ((⌊fy⌋ : ℚ) + ((1 : ℕ) : ℚ) - 1) = fy - (⌊fy⌋ : ℚ) := by
    push_cast
    ring
  have e2 : fy - ((⌊fy⌋ : ℚ) + ((2 : ℕ) : ℚ) - 1) = -(1 - (fy - (⌊fy⌋ : ℚ))) := by
    push_cast
    ring
  have e3 : fy - ((⌊fy⌋ : ℚ) + ((3 : ℕ) : ℚ) - 1) = -(2 - (fy - (⌊fy⌋ : ℚ))) := by
    push_cast
    ring
  rw [e0, e1, e2, e3, cubicW_neg, cubicW_neg]
  set f := fy - (⌊fy⌋ : ℚ) with hf
  rcases eq_or_lt_of_le hf0 with h0 | h0
  · rw [← h0]
    rw [show (0 : ℚ) + 1 = 1 by norm_num, show (1 : ℚ) - 0 = 1 by norm_num,
      show (2 : ℚ) - 0 = 2 by norm_num]
    simp only [cubicW_of_le 1 (by norm_num) (by norm_num),
      cubicW_of_le 0 (by norm_num) (by norm_num),
      cubicW_of_ge 2 (by norm_num)]
    norm_num
  · rw [cubicW_of_mid (f + 1) (by linarith) (by linarith),
      cubicW_of_le f hf0 (le_of_lt hf1),
      cubicW_of_le (1 - f) (by linarith) (by linarith),
      cubicW_of_mid (2 - f) (by linarith) (by linarith)]
    ring

theorem clampIdx_lt (n : ℕ) (hn : 0 < n) (p : ℤ) : clampIdx n p < n := by
  unfold clampIdx
  omega

/-- Every pixel of a cubic resample of a field that is constant on its domain has
that constant value: the interpolation weights for one axis sum to one and all
taps are clamped into the domain. -/
theorem cubicAt_const (a : Img) (k : ℚ) (h0 : 0 < a.height) (w0 : 0 < a.width)
    (hconst : ∀ r, r < a.height → ∀ c, c < a.width → a.pix r c = k) (fy fx : ℚ) :
    cubicAt a fy fx = k := by
  unfold cubicAt
  have hinner : ∀ u : ℕ,
      (∑ t ∈ Finset.range 4,
        cubicW (fy - ((⌊fy⌋ : ℚ) + (u : ℚ) - 1)) * cubicW (fx - ((⌊fx⌋ : ℚ) + (t : ℚ) - 1)) *
          a.pix (clampIdx a.height (⌊fy⌋ + (u : ℤ) - 1)) (clampIdx a.width (⌊fx⌋ + (t : ℤ) - 1))) =
      cubicW (fy - ((⌊fy⌋ : ℚ) + (u : ℚ) - 1)) *
        ∑ t ∈ Finset.range 4, cubicW (fx - ((⌊fx⌋ : ℚ) + (t : ℚ) - 1)) * k := by
    intro u
    rw [Finset.mul_sum]
    refine Finset.sum_congr rfl fun t ht => ?_
    rw [hconst _ (clampIdx_lt a.height h0 _) _ (clampIdx_lt a.width w0 _), mul_assoc]
  rw [Finset.sum_congr rfl fun u _ => hinner u, ← Finset.sum_mul, sum_cubicW, one_mul,
    ← Finset.sum_mul, sum_cubicW, one_mul]

theorem resizeCubic_const_on (a : Img) (k : ℚ) (W H : ℕ)
    (h0 : 0 < a.height) (w0 : 0 < a.width)
    (hconst : ∀ r, r < a.height → ∀ c, c < a.width → a.pix r c = k) (i j : ℕ) :
    (resizeCubic W H a).pix i j = k :=
  cubicAt_const a k h0 w0 hconst _ _

/-- The maximum of a raster that is constant on its nonempty domain is that
constant. -/
theorem maxPix_const_on (a : Img) (k : ℚ) (h0 : 0 < a.height) (w0 : 0 < a.width)
    (hconst : ∀ r, r < a.height → ∀ c, c < a.width → a.pix r c = k) :
    maxPix a = k := by
  apply qmax_eq_of
  · have h := hconst 0 h0 0 w0
    rw [← h]
    exact pix_mem_pixList a 0 0 h0 w0
  · intro y hy
    rcases (mem_pixList_iff a y).mp hy with ⟨r, hr, c, hc, he⟩
    rw [← he, hconst r hr c hc]

/-- Every pixel of the fixed 3-tap Gaussian smoothing of a raster that is
constant on its domain has that constant value: the kernel weights sum to one
and reflected border indices stay inside the domain. -/
theorem sepBlur_kernel3_const (a : Img) (k : ℚ) (h0 : 0 < a.height) (w0 : 0 < a.width)
    (hconst : ∀ r, r < a.height → ∀ c, c < a.width → a.pix r c = k) (i j : ℕ) :
    (sepBlur kernel3 a).pix i j = k := by
  show blurAt kernel3 a i j = k
  unfold blurAt
  have hstep : ∀ u t : ℕ,
      kernel3.getD u 0 * kernel3.getD t 0 *
        a.pix (reflect101 a.height ((i : ℤ) + (u : ℤ) - ((kernel3.length / 2 : ℕ) : ℤ)))
              (reflect101 a.width ((j : ℤ) + (t : ℤ) - ((kernel3.length / 2 : ℕ) : ℤ))) =
      kernel3.getD u 0 * kernel3.getD t 0 * k := by
    intro u t
    rw [hconst _ (reflect101_lt a.height h0 _) _ (reflect101_lt a.width w0 _)]
  rw [Finset.sum_congr rfl fun u hu => Finset.sum_congr rfl fun t ht => hstep u t]
  have hlen : kernel3.length = 3 := rfl
  rw [hlen]
  have hks : (∑ t ∈ Finset.range 3, kernel3.getD t 0) = 1 := by
    rw [Finset.sum_range_succ, Finset.sum_range_succ, Finset.sum_range_one]
    show (1/4 : ℚ) + 1/2 + 1/4 = 1
    norm_num
  have hinner : ∀ u : ℕ,
      (∑ t ∈ Finset.range 3, kernel3.getD u 0 * kernel3.getD t 0 * k) =
        kernel3.getD u 0 * k := by
    intro u
    calc (∑ t ∈ Finset.range 3, kernel3.getD u 0 * kernel3.getD t 0 * k)
        = ∑ t ∈ Finset.range 3, kernel3.getD u 0 * (kernel3.getD t 0 * k) :=
          Finset.sum_congr rfl fun t ht => mul_assoc _ _ _
      _ = kernel3.getD u 0 * ∑ t ∈ Finset.range 3, kernel3.getD t 0 * k :=
          (Finset.mul_sum _ _ _).symm
      _ = kernel3.getD u 0 * ((∑ t ∈ Finset.range 3, kernel3.getD t 0) * k) := by
          rw [← Finset.sum_mul]
      _ = kernel3.getD u 0 * k := by rw [hks, one_mul]
  rw [Finset.sum_congr rfl fun u _ => hinner u, ← Finset.sum_mul, hks, one_mul]

theorem pixOf_ok (o : Img8) (i j : ℕ) : pixOf (Except.ok o) i j = o.pix i j := rfl

theorem Img8_pix_mk (h w : ℕ) (f : ℕ → ℕ → ℕ) (i j : ℕ) :
    (Img8.mk h w f).pix i j = f i j := rfl

theorem normalizeVig_pix (a : Img) (i j : ℕ) :
    (normalizeVig a).pix i j = a.pix i j / maxPix a := rfl

theorem gray200_pix (i j : ℕ) : gray200.pix i j = 200 := rfl

/-- apply_style on nonempty inputs: the success branch written out. -/
theorem apply_style_pos (c v n : Img) (al : ℚ)
    (h : ¬(c.height = 0 ∨ c.width = 0 ∨ v.height = 0 ∨ v.width = 0 ∨
      n.height = 0 ∨ n.width = 0)) :
    apply_style c v n al = Except.ok (⟨c.height, c.width, fun i j =>
      clip8 (c.pix i j * (normalizeVig (resizeCubic c.width c.height v)).pix i j +
        (resizeCubic c.width c.height n).pix i j * al)⟩ : Img8) := by
  unfold apply_style
  rw [if_neg h]

/-- C9: extracting from ten identical solid-gray value-128 images at 4x4
processing resolution with the 3x3 blur kernel succeeds and yields a vignetting
field that is uniformly 128 and a noise field that is uniformly 0 on the 4x4
domain; applying that fingerprint with noise alpha 1 to a 4x4 solid-gray
value-200 clean image yields an output that is uniformly 200 (the normalized
vignette multiplier is 1 and the additive noise contribution is 0); the rational
model realises the approximate equalities of the spec exactly. -/
theorem C9_end_to_end :
    (extract_fingerprint (some grayBatch) (4, 4) kernel3).isSome = true ∧
      (∀ i, i < 4 → ∀ j, j < 4 → fpV.pix i j = 128 ∧ fpN.pix i j = 0) ∧
      (∀ i, i < 4 → ∀ j, j < 4 → pixOf (apply_style gray200 fpV fpN 1) i j = 200) := by
  have hsupp : supportedFile (⟨".png", some gray128⟩ : FileEntry) = true := by decide
  have hpaths : image_paths grayBatch = grayBatch := by
    unfold image_paths grayBatch
    exact filter_replicate_pos _ _ hsupp 10
  have hgoods : goodImages grayBatch = List.replicate 10 gray128 := by
    unfold goodImages
    rw [hpaths]
    unfold grayBatch
    exact filterMap_replicate_some _ _ _ rfl 10
  have hlen : (goodImages grayBatch).length = 10 := by
    rw [hgoods]
    simp
  have hE : ¬((image_paths grayBatch).isEmpty = true) := by
    rw [hpaths]
    decide
  have hL : ¬((goodImages grayBatch).length = 0) := by
    rw [hlen]
    omega
  have havg : average_image (some grayBatch) (4, 4) = some A9 := by
    rw [average_image_some, if_neg hE, if_neg hL]
    rfl
  have hApix : ∀ r, r < 4 → ∀ c, c < 4 → A9.pix r c = 128 := by
    intro r hr c hc
    show (accumulate (4, 4) (goodImages grayBatch)).pix r c /
        ((goodImages grayBatch).length : ℚ) = 128
    rw [hgoods, accumulate_pix]
    simp only [List.map_replicate, List.sum_replicate, List.length_replicate]
    rw [resizeArea_self gray128 (4, 4).1 (4, 4).2 r c rfl rfl hr hc]
    show (10 : ℕ) • (128 : ℚ) / ((10 : ℕ) : ℚ) = 128
    norm_num
  have hVpix : ∀ i j : ℕ, (sepBlur kernel3 A9).pix i j = 128 :=
    fun i j => sepBlur_kernel3_const A9 128 (by decide) (by decide) hApix i j
  have hfpV : fpV = sepBlur kernel3 A9 := by
    unfold fpV
    rw [extract_fingerprint_def, havg]
    rfl
  have hfpNpix : ∀ i j : ℕ, fpN.pix i j = A9.pix i j - (sepBlur kernel3 A9).pix i j := by
    intro i j
    unfold fpN
    rw [extract_fingerprint_def, havg]
    rfl
  have hNpix : ∀ r, r < 4 → ∀ c, c < 4 → fpN.pix r c = 0 := by
    intro r hr c hc
    rw [hfpNpix, hVpix, hApix r hr c hc]
    norm_num
  have hfpVconst : ∀ r, r < fpV.height → ∀ c, c < fpV.width → fpV.pix r c = 128 := by
    intro r hr c hc
    rw [hfpV]
    exact hVpix r c
  have hfpNconst : ∀ r, r < fpN.height → ∀ c, c < fpN.width → fpN.pix r c = 0 := by
    intro r hr c hc
    exact hNpix r hr c hc
  have hcond : ¬(gray200.height = 0 ∨ gray200.width = 0 ∨ fpV.height = 0 ∨ fpV.width = 0 ∨
      fpN.height = 0 ∨ fpN.width = 0) := by
    decide
  have happly := apply_style_pos gray200 fpV fpN 1 hcond
  have hvr : ∀ i j : ℕ, (resizeCubic gray200.width gray200.height fpV).pix i j = 128 :=
    fun i j => resizeCubic_const_on fpV 128 _ _ (by decide) (by decide) hfpVconst i j
  have hnr : ∀ i j : ℕ, (resizeCubic gray200.width gray200.height fpN).pix i j = 0 :=
    fun i j => resizeCubic_const_on fpN 0 _ _ (by decide) (by decide) hfpNconst i j
  have hmaxvr : maxPix (resizeCubic gray200.width gray200.height fpV) = 128 :=
    maxPix_const_on _ 128 (by decide) (by decide) (fun r _ c _ => hvr r c)
  refine ⟨?_, ?_, ?_⟩
  · rw [extract_fingerprint_def, havg]
    rfl
  · intro i hi j hj
    constructor
    · rw [hfpV]
      exact hVpix i j
    · exact hNpix i hi j hj
  · intro i hi j hj
    rw [happly, pixOf_ok, Img8_pix_mk]
    rw [normalizeVig_pix, hvr, hmaxvr, hnr, gray200_pix]
    rw [show (200 : ℚ) * (128 / 128) + 0 * 1 = 200 by norm_num]
    unfold clip8
    rw [max_eq_left (by norm_num), min_eq_left (by norm_num)]
    norm_num
    rfl

/-- Witness for C9 at the corner pixel. -/
theorem C9_witness :
    (0 : ℕ) < 4 ∧ fpV.pix 0 0 = 128 ∧ fpN.pix 0 0 = 0 ∧
      pixOf (apply_style gray200 fpV fpN 1) 0 0 = 200 :=
  ⟨by decide,
   (C9_end_to_end.2.1 0 (by decide) 0 (by decide)).1,
   (C9_end_to_end.2.1 0 (by decide) 0 (by decide)).2,
   C9_end_to_end.2.2 0 (by decide) 0 (by decide)⟩

end IRT
